import Mathlib

/-!
Shallow embedding of the expense tracker script
(src/Tracker copy/pythonscript.py) and verification of its specification.

Python floats are modelled as exact rationals; the rounding Python performs
when formatting a value with two fixed decimal digits is modelled as exact
round-half-to-even on the rational value. Python strings are modelled as
Lean strings or lists of characters.
-/

/-- ASCII digit test: the digit characters accepted by Python float literals
(codes 48 to 57). -/
def isDig (c : Char) : Bool := 48 ≤ c.toNat && c.toNat ≤ 57

/-- Numeric value of an ASCII digit character. -/
def digVal (c : Char) : Nat := c.toNat - 48

/-- ASCII digit character for a value below ten. -/
def digitChar (d : Nat) : Char := Char.ofNat (48 + d)

/-- Value of a most-significant-first ASCII digit string. -/
def charsVal (cs : List Char) : Nat := cs.foldl (fun a c => 10 * a + digVal c) 0

/-- Characters stripped by Python str.strip, restricted to the ASCII and
Latin-1 range; Unicode-only space code points are omitted, and none of the
inputs considered in this development contains them. -/
def pySpaceChars : List Char :=
  [' ', '\t', '\n', '\r', '\x0b', '\x0c', '\x1c', '\x1d', '\x1e', '\x1f', '\x85', '\xa0']

/-- Whitespace test used by the model of Python str.strip. -/
def isPySpace (c : Char) : Bool := decide (c ∈ pySpaceChars)

/-- Python str.strip: drop leading and trailing whitespace. -/
def pyStrip (cs : List Char) : List Char :=
  ((cs.dropWhile isPySpace).reverse.dropWhile isPySpace).reverse

/-- Python str.replace with an empty replacement: remove all occurrences of
one character. -/
def removeAll (a : Char) (cs : List Char) : List Char := cs.filter (fun c => c != a)

/-- Python str.replace of one character by another, applied everywhere. -/
def replaceAll (a b : Char) (cs : List Char) : List Char :=
  cs.map (fun c => if c = a then b else c)

/-- Modelled fragment of Python float conversion for unsigned decimal
literals: digit characters with at most one period and at least one digit.
Exponents, the words inf and nan, and underscore separators are not
modelled; no input arising in this repository uses them. -/
def parseUnsigned (cs : List Char) : Option ℚ :=
  if cs.count '.' = 0 then
    if cs ≠ [] ∧ cs.all isDig then some (charsVal cs) else none
  else if cs.count '.' = 1 then
    let whole := cs.takeWhile (fun c => c != '.')
    let frac := (cs.dropWhile (fun c => c != '.')).tail
    if (whole ≠ [] ∨ frac ≠ []) ∧ whole.all isDig ∧ frac.all isDig then
      some ((charsVal whole : ℚ) + (charsVal frac : ℚ) / 10 ^ frac.length)
    else none
  else none

/-- Python float applied to a character list: an optional sign followed by an
unsigned decimal literal. none models a raised ValueError. -/
def pyFloat (cs : List Char) : Option ℚ :=
  match cs with
  | [] => none
  | c :: rest =>
    if c = '-' then (parseUnsigned rest).map (fun q => -q)
    else if c = '+' then parseUnsigned rest
    else parseUnsigned (c :: rest)

/-- The cleaning phase of ExpenseTracker.parse_amount: strip, then remove the
euro sign, spaces, and non-breaking spaces. -/
def cleanAmount (s : String) : List Char :=
  removeAll '\xa0' (removeAll ' ' (removeAll '€' (pyStrip s.data)))

/-- The separator disambiguation of ExpenseTracker.parse_amount: with both a
period and a comma present, all periods are removed and then every comma
becomes a period; with commas only, every comma becomes a period. -/
def amountTransform (t : List Char) : List Char :=
  if '.' ∈ t ∧ ',' ∈ t then replaceAll ',' '.' (removeAll '.' t)
  else if ',' ∈ t ∧ '.' ∉ t then replaceAll ',' '.' t
  else t

/-- ExpenseTracker.parse_amount: clean the input, reject an empty result,
disambiguate the separators, and convert with float. -/
def parse_amount (s : String) : Option ℚ :=
  if cleanAmount s = [] then none
  else pyFloat (amountTransform (cleanAmount s))

/-- Little-endian decimal digit characters of a natural number, driven by a
fuel argument of at least the number itself so that the recursion is
structural and the kernel can evaluate it. -/
def natToCharsAux : Nat → Nat → List Char
  | 0, _ => []
  | _ + 1, 0 => []
  | fuel + 1, n + 1 => digitChar ((n + 1) % 10) :: natToCharsAux fuel ((n + 1) / 10)

/-- Decimal digit string of a natural number, as Python str produces it. -/
def natToChars (n : Nat) : List Char :=
  if n = 0 then ['0'] else (natToCharsAux n n).reverse

/-- Two zero-padded decimal digits, for the fractional part of a fixed
two-decimal format. -/
def twoDigitChars (m : Nat) : List Char := [digitChar (m / 10), digitChar (m % 10)]

/-- Round half to even to an integer: the rounding Python applies when
formatting a value with a fixed number of decimal digits. -/
def rhe (q : ℚ) : ℤ :=
  if q - ⌊q⌋ < 1/2 then ⌊q⌋
  else if 1/2 < q - ⌊q⌋ then ⌊q⌋ + 1
  else if ⌊q⌋ % 2 = 0 then ⌊q⌋ else ⌊q⌋ + 1

/-- Digit string of n hundredths in the two-decimal fixed-point format used
by Python format spec .2f: optional minus sign, integer digits, period, two
fractional digits. -/
def decimal2 (n : ℤ) : List Char :=
  (if n < 0 then ['-'] else []) ++
    natToChars (n.natAbs / 100) ++ '.' :: twoDigitChars (n.natAbs % 100)

/-- Python format spec .2f as used by Expense.to_dict: two fixed decimals,
period decimal point, no grouping, no currency symbol. -/
def fmt2 (x : ℚ) : String := String.mk (decimal2 (rhe (x * 100)))

/-- Insert a comma after every third character of a little-endian digit
list, as Python comma grouping does counting from the decimal point. -/
def group3rev : List Char → List Char
  | c1 :: c2 :: c3 :: c4 :: rest => c1 :: c2 :: c3 :: ',' :: group3rev (c4 :: rest)
  | cs => cs

/-- Group a most-significant-first digit list in threes from the right. -/
def groupDigits (cs : List Char) : List Char := (group3rev cs.reverse).reverse

/-- The separator swap of ExpenseTracker.format_amount, performed in the
source by replacing comma with X, then period with comma, then X with
period; no other character of the formatted number is an X, so the net
effect is the exchange of the two separators. -/
def swapSep (cs : List Char) : List Char :=
  cs.map (fun c => if c = ',' then '.' else if c = '.' then ',' else c)

/-- Digit string of n hundredths in the comma-grouped format of Python
format spec ,.2f, before the separator swap. -/
def grouped2 (n : ℤ) : List Char :=
  (if n < 0 then ['-'] else []) ++
    groupDigits (natToChars (n.natAbs / 100)) ++ '.' :: twoDigitChars (n.natAbs % 100)

/-- ExpenseTracker.format_amount: format with comma grouping and two
decimals, swap the two separators, and append the euro sign. -/
def format_amount (x : ℚ) : String :=
  String.mk (swapSep (grouped2 (rhe (x * 100))) ++ ['€'])

/-- One ledger entry, as the Expense class stores it. -/
structure Expense where
  date : String
  category : String
  description : String
  amount : ℚ
deriving DecidableEq

/-- Expense.to_dict as a row of the four column values; the amount is
rendered with format spec .2f. -/
def to_dict_row (e : Expense) : List String :=
  [e.date, e.category, e.description, fmt2 e.amount]

/-- Header row written by ExpenseTracker.save_expenses. -/
def csvHeader : List String := ["date", "category", "description", "amount"]

/-- ExpenseTracker.save_expenses: full overwrite of the backing file with a
header row followed by one row per expense. The file is modelled as the
list of its rows, each row the list of its four field values; the quoting
layer of the csv module is injective on fields and is not re-modelled. -/
def save_expenses (es : List Expense) : List (List String) :=
  csvHeader :: es.map to_dict_row

/-- One row of ExpenseTracker.load_expenses: the three text fields are taken
as they are and the amount field goes through float. -/
def parseRow (r : List String) : Option Expense :=
  match r with
  | [d, c, de, a] => (pyFloat a.data).map (fun q => ⟨d, c, de, q⟩)
  | _ => none

/-- Row-by-row conversion of the data rows; a single failing row aborts the
whole load, as the raised ValueError does in the source. -/
def loadRowsAux : List (List String) → Option (List Expense)
  | [] => some []
  | r :: rs =>
    match parseRow r, loadRowsAux rs with
    | some e, some es => some (e :: es)
    | _, _ => none

/-- ExpenseTracker.load_expenses: an absent or empty file yields the empty
ledger; otherwise the header row is consumed and the data rows are parsed. -/
def load_expenses (f : List (List String)) : Option (List Expense) :=
  match f with
  | [] => some []
  | _ :: rows => loadRowsAux rows

/-- ExpenseTracker.add_expense on a state of in-memory ledger and persisted
file: append at the tail, then persist the whole ledger. -/
def add_expense (st : List Expense × List (List String)) (e : Expense) :
    List Expense × List (List String) :=
  (st.1 ++ [e], save_expenses (st.1 ++ [e]))

/-- Appending a sequence of records one by one to a fresh ledger, persisting
after each append; the second component is the backing file contents. -/
def appendAll (recs : List Expense) : List Expense × List (List String) :=
  recs.foldl add_expense ([], save_expenses [])

/-- ExpenseTracker.delete_entry: reject a 1-based index outside the range,
otherwise remove exactly that element. The boolean is the return value of
the method; the list is the resulting ledger, which the source then
persists with save_expenses. -/
def delete_entry (es : List Expense) (index : ℤ) : Bool × List Expense :=
  if index < 1 ∨ (es.length : ℤ) < index then (false, es)
  else (true, es.eraseIdx (index - 1).toNat)

/-- ExpenseTracker.get_total: the signed sum of all amounts. -/
def get_total (es : List Expense) : ℚ := (es.map Expense.amount).sum

/-- Outcome of ExpenseTracker.plot_summary: the early no-data notice, the
no-positive-amounts notice, or the dataset handed to the chart sink. -/
inductive PlotResult where
  | noData : PlotResult
  | noPositive : PlotResult
  | chart : List (String × ℚ) → PlotResult
deriving DecidableEq

/-- Update of the category_totals dictionary: Python dicts keep insertion
order, updating an existing key in place and appending a new key. -/
def addToTotals : List (String × ℚ) → String → ℚ → List (String × ℚ)
  | [], cat, a => [(cat, a)]
  | (k, v) :: rest, cat, a =>
    if k = cat then (k, v + a) :: rest else (k, v) :: addToTotals rest cat a

/-- The grouping loop of plot_summary: sum amounts per category in first
occurrence order. The isnan guards of the source are vacuous in the
rational model, which has no NaN values. -/
def category_totals (es : List Expense) : List (String × ℚ) :=
  es.foldl (fun m e => addToTotals m e.category e.amount) []

/-- The filter of plot_summary: keep only categories with a positive total. -/
def plotFiltered (es : List Expense) : List (String × ℚ) :=
  (category_totals es).filter (fun kv => decide (0 < kv.2))

/-- ExpenseTracker.plot_summary: empty ledger notice, empty filter notice,
or the chart invocation with the filtered totals. -/
def plot_summary (es : List Expense) : PlotResult :=
  if es = [] then PlotResult.noData
  else if plotFiltered es = [] then PlotResult.noPositive
  else PlotResult.chart (plotFiltered es)

/-- Sum of the amounts of the records of one category. -/
def catSum (es : List Expense) (cat : String) : ℚ :=
  ((es.filter (fun e => decide (e.category = cat))).map Expense.amount).sum

/-- Python max over a generator with a default: the default when the list is
empty, the maximum otherwise. -/
def pymax (d : Nat) : List Nat → Nat
  | [] => d
  | x :: xs => xs.foldl max x

/-- Length of Python str of a natural number. -/
def numLen (n : Nat) : Nat := (natToChars n).length

/-- Width of the Nr. column in view_expenses. -/
def nr_w (es : List Expense) : Nat := max ("Nr.".length) (numLen es.length)

/-- Width of the date column in view_expenses: the source uses the literal
minimum 10, not the header label. -/
def date_w (es : List Expense) : Nat :=
  max 10 (pymax 10 (es.map (fun e => e.date.length)))

/-- Width of the category column in view_expenses. -/
def cat_w (es : List Expense) : Nat :=
  max ("Kategorie".length) (pymax 8 (es.map (fun e => e.category.length)))

/-- Width of the description column in view_expenses. -/
def desc_w (es : List Expense) : Nat :=
  max ("Beschreibung".length) (pymax 30 (es.map (fun e => e.description.length)))

/-- Width of the amount column in view_expenses: computed over the formatted
amounts with the formatted total appended. -/
def amt_w (es : List Expense) : Nat :=
  max ("Betrag".length)
    (pymax 12 (es.map (fun e => (format_amount e.amount).length) ++
      [(format_amount (get_total es)).length]))

/-- Column width as the specification describes it: the maximum of the
header label length and the cell lengths of the column. -/
def claimColWidth (headerLen : Nat) (cells : List Nat) : Nat :=
  max headerLen (pymax 0 cells)

/-- The keys defined in the TEXTS table of the source, including the three
keys added by the TEXTS.update call. -/
def TEXTS_keys : List String :=
  ["title", "opt1", "opt2", "opt3", "opt4", "opt5", "opt6", "opt7", "choose",
   "enter_date", "invalid_date", "enter_category", "enter_description",
   "enter_amount", "invalid_amount", "saved", "press_enter", "goodbye",
   "delete_prompt", "admin_pw_prompt", "pw_wrong", "delete_success",
   "delete_invalid", "login_user", "login_pw", "login_fail",
   "select_sign", "income_label", "expense_label"]

/-- The polarity step of main_menu: a token other than plus or minus first
prints the TEXTS entry sign_invalid and only then defaults the sign to
minus; a lookup of a key absent from TEXTS raises a KeyError, modelled as
none. With a valid token the parsed magnitude is replaced by its absolute
value and the chosen sign is applied. -/
def choose_sign (sign : String) (m : ℚ) : Option ℚ :=
  if sign ≠ "+" ∧ sign ≠ "-" then
    if TEXTS_keys.contains "sign_invalid" then some (-|m|) else none
  else if sign = "-" then some (-|m|) else some |m|

/-- The record as it is reproduced by one save and load cycle: the three
text fields unchanged, the amount rounded to hundredths by format spec .2f. -/
def roundRecord (e : Expense) : Expense :=
  ⟨e.date, e.category, e.description, ((rhe (e.amount * 100) : ℚ)) / 100⟩

/-- Lookup in the association list that models the category_totals dict. -/
def alGet : List (String × ℚ) → String → Option ℚ
  | [], _ => none
  | (k, v) :: rest, cat => if k = cat then some v else alGet rest cat

/-! Basic facts about digits and characters. -/

theorem digitChar_isDig : ∀ d < 10, isDig (digitChar d) = true ∧ digVal (digitChar d) = d := by
  decide

theorem isDig_ne_dot {c : Char} (h : isDig c = true) : c ≠ '.' := by
  rintro rfl; revert h; decide

theorem isDig_ne_comma {c : Char} (h : isDig c = true) : c ≠ ',' := by
  rintro rfl; revert h; decide

theorem isDig_ne_minus {c : Char} (h : isDig c = true) : c ≠ '-' := by
  rintro rfl; revert h; decide

theorem isDig_ne_plus {c : Char} (h : isDig c = true) : c ≠ '+' := by
  rintro rfl; revert h; decide

theorem isDig_ne_euro {c : Char} (h : isDig c = true) : c ≠ '€' := by
  rintro rfl; revert h; decide

theorem isDig_not_space {c : Char} (h : isDig c = true) : isPySpace c = false := by
  by_contra hc
  have hmem : c ∈ pySpaceChars := by
    simpa [isPySpace] using hc
  fin_cases hmem <;> revert h <;> decide

/-! Correctness of the decimal digit rendering. -/

theorem natToCharsAux_eq_digits :
    ∀ fuel n, n ≤ fuel → natToCharsAux fuel n = (Nat.digits 10 n).map digitChar := by
  intro fuel
  induction fuel with
  | zero =>
    intro n hn
    interval_cases n
    simp [natToCharsAux]
  | succ fuel ih =>
    intro n hn
    match n with
    | 0 => simp [natToCharsAux]
    | m + 1 =>
      rw [natToCharsAux, Nat.digits_def' (b := 10) (by norm_num) (Nat.succ_pos m)]
      rw [ih ((m + 1) / 10) (by omega)]
      simp

theorem natToChars_zero : natToChars 0 = ['0'] := rfl

theorem natToChars_eq {n : Nat} (hn : n ≠ 0) :
    natToChars n = ((Nat.digits 10 n).map digitChar).reverse := by
  rw [natToChars, if_neg hn, natToCharsAux_eq_digits n n le_rfl]

theorem natToChars_all_digits (n : Nat) : ∀ c ∈ natToChars n, isDig c = true := by
  intro c hc
  rcases Nat.eq_zero_or_pos n with rfl | hp
  · rw [natToChars_zero] at hc
    simp at hc
    subst hc; decide
  · rw [natToChars_eq hp.ne'] at hc
    simp only [List.mem_reverse, List.mem_map] at hc
    obtain ⟨d, hd, rfl⟩ := hc
    exact (digitChar_isDig d (Nat.digits_lt_base (by norm_num) hd)).1

theorem natToChars_ne_nil (n : Nat) : natToChars n ≠ [] := by
  rcases Nat.eq_zero_or_pos n with rfl | hp
  · simp [natToChars_zero]
  · rw [natToChars_eq hp.ne']
    simp [Nat.digits_ne_nil_iff_ne_zero.mpr hp.ne']

theorem charsVal_append_singleton (cs : List Char) (c : Char) :
    charsVal (cs ++ [c]) = 10 * charsVal cs + digVal c := by
  simp [charsVal, List.foldl_append]

theorem charsVal_rev_map (L : List Nat) (hL : ∀ d ∈ L, d < 10) :
    charsVal ((L.map digitChar).reverse) = Nat.ofDigits 10 L := by
  induction L with
  | nil => simp [charsVal, Nat.ofDigits]
  | cons d L ih =>
    have hd : d < 10 := hL d (by simp)
    simp only [List.map_cons, List.reverse_cons, charsVal_append_singleton]
    rw [ih (fun x hx => hL x (by simp [hx]))]
    rw [Nat.ofDigits_cons, (digitChar_isDig d hd).2]
    ring

theorem charsVal_natToChars (n : Nat) : charsVal (natToChars n) = n := by
  rcases Nat.eq_zero_or_pos n with rfl | hp
  · decide
  · rw [natToChars_eq hp.ne', charsVal_rev_map _ (fun d hd => Nat.digits_lt_base (by norm_num) hd)]
    exact Nat.ofDigits_digits 10 n

theorem twoDigitChars_facts :
    ∀ m < 100, ((twoDigitChars m).all isDig = true) ∧ charsVal (twoDigitChars m) = m := by
  decide

/-! List utilities for the parser proofs. -/

theorem takeWhile_append_of_forall {p : Char → Bool} {A : List Char} (x : Char) (B : List Char)
    (hA : ∀ c ∈ A, p c = true) (hx : p x = false) :
    (A ++ x :: B).takeWhile p = A := by
  induction A with
  | nil => simp [List.takeWhile, hx]
  | cons a A ih =>
    have ha : p a = true := hA a (by simp)
    simp only [List.cons_append, List.takeWhile_cons, ha, if_true]
    simp [ih (fun c hc => hA c (by simp [hc]))]

theorem dropWhile_append_of_forall {p : Char → Bool} {A : List Char} (x : Char) (B : List Char)
    (hA : ∀ c ∈ A, p c = true) (hx : p x = false) :
    (A ++ x :: B).dropWhile p = x :: B := by
  induction A with
  | nil => simp [List.dropWhile, hx]
  | cons a A ih =>
    have ha : p a = true := hA a (by simp)
    simp only [List.cons_append, List.dropWhile_cons, ha]
    exact ih (fun c hc => hA c (by simp [hc]))

theorem dropWhile_eq_self_of_forall {p : Char → Bool} {cs : List Char}
    (h : ∀ c ∈ cs, p c = false) : cs.dropWhile p = cs := by
  cases cs with
  | nil => rfl
  | cons a A => simp [List.dropWhile_cons, h a (by simp)]

theorem count_eq_zero_of_all_digits {cs : List Char} (h : ∀ c ∈ cs, isDig c = true) :
    cs.count '.' = 0 :=
  List.count_eq_zero.mpr (fun hc => isDig_ne_dot (h _ hc) rfl)

/-! Evaluation lemmas for the modelled float conversion. -/

theorem parseUnsigned_digits {cs : List Char} (hne : cs ≠ [])
    (hd : ∀ c ∈ cs, isDig c = true) : parseUnsigned cs = some ((charsVal cs : ℚ)) := by
  rw [parseUnsigned, if_pos (count_eq_zero_of_all_digits hd),
    if_pos ⟨hne, List.all_eq_true.mpr hd⟩]

theorem parseUnsigned_dot {A B : List Char} (hA : ∀ c ∈ A, isDig c = true)
    (hB : ∀ c ∈ B, isDig c = true) (hne : A ≠ [] ∨ B ≠ []) :
    parseUnsigned (A ++ '.' :: B) =
      some ((charsVal A : ℚ) + (charsVal B : ℚ) / 10 ^ B.length) := by
  have hcA : A.count '.' = 0 := count_eq_zero_of_all_digits hA
  have hcB : B.count '.' = 0 := count_eq_zero_of_all_digits hB
  have hcount : (A ++ '.' :: B).count '.' = 1 := by
    simp [List.count_append, List.count_cons, hcA, hcB]
  have hAp : ∀ c ∈ A, (fun c => c != '.') c = true := by
    intro c hc
    simpa using isDig_ne_dot (hA c hc)
  have hdot : (fun c => c != '.') '.' = false := by simp
  rw [parseUnsigned, if_neg (by omega), if_pos hcount]
  simp only [takeWhile_append_of_forall '.' B hAp hdot,
    dropWhile_append_of_forall '.' B hAp hdot, List.tail_cons]
  rw [if_pos ⟨hne, List.all_eq_true.mpr hA, List.all_eq_true.mpr hB⟩]

theorem pyFloat_pos_digits {c : Char} {cs : List Char} (hc : isDig c = true) :
    pyFloat (c :: cs) = parseUnsigned (c :: cs) := by
  rw [pyFloat, if_neg (isDig_ne_minus hc), if_neg (isDig_ne_plus hc)]

theorem pyFloat_neg {cs : List Char} :
    pyFloat ('-' :: cs) = (parseUnsigned cs).map (fun q => -q) := by
  rw [pyFloat, if_pos rfl]

theorem pyFloat_dot_pos {A B : List Char} (hA : ∀ c ∈ A, isDig c = true)
    (hB : ∀ c ∈ B, isDig c = true) (hne : A ≠ []) :
    pyFloat (A ++ '.' :: B) =
      some ((charsVal A : ℚ) + (charsVal B : ℚ) / 10 ^ B.length) := by
  obtain ⟨a, A', rfl⟩ := List.exists_cons_of_ne_nil hne
  rw [List.cons_append, pyFloat_pos_digits (hA a (by simp)), ← List.cons_append]
  exact parseUnsigned_dot hA hB (Or.inl hne)

theorem pyFloat_two_dots {cs : List Char} (h : 2 ≤ cs.count '.') : pyFloat cs = none := by
  match cs with
  | [] => simp at h
  | c :: rest =>
    have hrest : 2 ≤ rest.count '.' ∨ (c = '.' ∧ 1 ≤ rest.count '.') := by
      rcases eq_or_ne c '.' with rfl | hne
      · simp only [List.count_cons_self] at h
        exact Or.inr ⟨rfl, by omega⟩
      · rw [List.count_cons_of_ne (fun hh => hne hh.symm)] at h
        exact Or.inl h
    have hpu : ∀ ds : List Char, 2 ≤ ds.count '.' → parseUnsigned ds = none := by
      intro ds hds
      rw [parseUnsigned, if_neg (by omega), if_neg (by omega)]
    rcases hrest with hr | ⟨rfl, hr⟩
    · rw [pyFloat]
      split
      · rw [hpu rest hr]; rfl
      · split
        · exact hpu rest hr
        · exact hpu _ (by simpa using h)
    · rw [pyFloat, if_neg (by decide), if_neg (by decide)]
      exact hpu _ (by simpa using h)

/-! Identity lemmas for the cleaning phase. -/

theorem pyStrip_eq_self {cs : List Char} (h : ∀ c ∈ cs, isPySpace c = false) :
    pyStrip cs = cs := by
  rw [pyStrip, dropWhile_eq_self_of_forall h, dropWhile_eq_self_of_forall ?hrev,
    List.reverse_reverse]
  case hrev => intro c hc; exact h c (by simpa using hc)

theorem removeAll_eq_self {a : Char} {cs : List Char} (h : a ∉ cs) : removeAll a cs = cs := by
  rw [removeAll, List.filter_eq_self]
  intro c hc
  simp only [bne_iff_ne, ne_eq]
  rintro rfl
  exact h hc

theorem replaceAll_eq_self {a b : Char} {cs : List Char} (h : a ∉ cs) : replaceAll a b cs = cs := by
  induction cs with
  | nil => rfl
  | cons c cs ih =>
    have h1 : ¬(c = a) := by rintro rfl; exact h (by simp)
    have h2 : a ∉ cs := fun hh => h (by simp [hh])
    simp only [replaceAll, List.map_cons, if_neg h1]
    exact congrArg _ (ih h2)

theorem removeAll_append (a : Char) (xs ys : List Char) :
    removeAll a (xs ++ ys) = removeAll a xs ++ removeAll a ys := by
  simp [removeAll, List.filter_append]

theorem replaceAll_append (a b : Char) (xs ys : List Char) :
    replaceAll a b (xs ++ ys) = replaceAll a b xs ++ replaceAll a b ys := by
  simp [replaceAll]

theorem removeAll_cons_of_ne {a c : Char} (cs : List Char) (h : ¬(c = a)) :
    removeAll a (c :: cs) = c :: removeAll a cs := by
  simp [removeAll, List.filter_cons, h]

theorem replaceAll_cons_of_ne {a c : Char} (b : Char) (cs : List Char) (h : ¬(c = a)) :
    replaceAll a b (c :: cs) = c :: replaceAll a b cs := by
  simp [replaceAll, h]

/-! Rounding lemmas. -/

theorem rhe_intCast (m : ℤ) : rhe (m : ℚ) = m := by
  rw [rhe, Int.floor_intCast, if_pos (by norm_num)]

/-! Value of the two-decimal digit strings. -/

theorem charsVal_div_val (a : ℕ) :
    (charsVal (natToChars (a / 100)) : ℚ) +
      (charsVal (twoDigitChars (a % 100)) : ℚ) / 10 ^ (twoDigitChars (a % 100)).length =
    (a : ℚ) / 100 := by
  have h1 := charsVal_natToChars (a / 100)
  have h2 := (twoDigitChars_facts (a % 100) (Nat.mod_lt _ (by norm_num))).2
  have hlen : (twoDigitChars (a % 100)).length = 2 := rfl
  rw [h1, h2, hlen]
  have hmod : 100 * (a / 100) + a % 100 = a := Nat.div_add_mod a 100
  field_simp
  norm_cast
  omega

theorem twoDigitChars_all (m : ℕ) : ∀ c ∈ twoDigitChars (m % 100), isDig c = true := by
  have := (twoDigitChars_facts (m % 100) (Nat.mod_lt _ (by norm_num))).1
  exact fun c hc => (List.all_eq_true.mp this) c hc

theorem pyFloat_decimal2 (n : ℤ) : pyFloat (decimal2 n) = some ((n : ℚ) / 100) := by
  have hA := natToChars_all_digits (n.natAbs / 100)
  have hAne := natToChars_ne_nil (n.natAbs / 100)
  have hB := twoDigitChars_all n.natAbs
  rcases lt_or_le n 0 with hn | hn
  · rw [decimal2, if_pos hn, List.singleton_append, List.cons_append, pyFloat_neg,
      parseUnsigned_dot hA hB (Or.inl hAne)]
    simp only [Option.map_some']
    congr 1
    rw [charsVal_div_val n.natAbs]
    have habs : ((n.natAbs : ℚ)) = -(n : ℚ) := by
      rw [Int.cast_natAbs]
      exact_mod_cast abs_of_neg hn
    rw [habs]
    ring
  · rw [decimal2, if_neg (not_lt.mpr hn), List.nil_append,
      pyFloat_dot_pos hA hB hAne, charsVal_div_val n.natAbs]
    have habs : ((n.natAbs : ℚ)) = (n : ℚ) := by
      rw [Int.cast_natAbs]
      exact_mod_cast abs_of_nonneg hn
    rw [habs]

/-! The comma grouping and the separator swap of format_amount. -/

theorem map_eq_self_of {f : Char → Char} {cs : List Char} (h : ∀ c ∈ cs, f c = c) :
    cs.map f = cs := by
  induction cs with
  | nil => rfl
  | cons c cs ih => rw [List.map_cons, h c (by simp), ih (fun x hx => h x (by simp [hx]))]

theorem group3rev_filter {p : Char → Bool} (hp : p ',' = false) :
    ∀ cs : List Char, (group3rev cs).filter p = cs.filter p := by
  intro cs
  induction cs using group3rev.induct with
  | case1 c1 c2 c3 c4 rest ih => simp [group3rev, List.filter_cons, hp, ih]
  | case2 cs h =>
    rcases cs with _ | ⟨a, _ | ⟨b, _ | ⟨c, _ | ⟨d, rest⟩⟩⟩⟩
    · rfl
    · rfl
    · rfl
    · rfl
    · exact absurd rfl (h a b c d rest)

theorem group3rev_mem :
    ∀ cs : List Char, ∀ c ∈ group3rev cs, c ∈ cs ∨ c = ',' := by
  intro cs
  induction cs using group3rev.induct with
  | case1 c1 c2 c3 c4 rest ih =>
    intro c hc
    rw [group3rev] at hc
    simp only [List.mem_cons] at hc
    rcases hc with rfl | rfl | rfl | rfl | hc
    · exact Or.inl (by simp)
    · exact Or.inl (by simp)
    · exact Or.inl (by simp)
    · exact Or.inr rfl
    · rcases ih c hc with hm | rfl
      · exact Or.inl (by simp [List.mem_cons] at hm ⊢; tauto)
      · exact Or.inr rfl
  | case2 cs h =>
    intro c hc
    rcases cs with _ | ⟨a, _ | ⟨b, _ | ⟨c', _ | ⟨d, rest⟩⟩⟩⟩
    · exact Or.inl hc
    · exact Or.inl hc
    · exact Or.inl hc
    · exact Or.inl hc
    · exact absurd rfl (h a b c' d rest)

theorem mem_groupDigits {A : List Char} (hA : ∀ c ∈ A, isDig c = true) :
    ∀ c ∈ groupDigits A, isDig c = true ∨ c = ',' := by
  intro c hc
  rw [groupDigits, List.mem_reverse] at hc
  rcases group3rev_mem A.reverse c hc with hm | rfl
  · exact Or.inl (hA c (by simpa using hm))
  · exact Or.inr rfl

theorem removeAll_comma_groupDigits {A : List Char} (hA : ∀ c ∈ A, isDig c = true) :
    removeAll ',' (groupDigits A) = A := by
  rw [groupDigits, removeAll, List.filter_reverse, group3rev_filter (by simp),
    List.filter_reverse, List.reverse_reverse]
  exact removeAll_eq_self (fun hc => isDig_ne_comma (hA ',' hc) rfl)

theorem swapSep_digits {cs : List Char} (h : ∀ c ∈ cs, isDig c = true) :
    swapSep cs = cs := by
  refine map_eq_self_of (fun c hc => ?_)
  rw [if_neg (isDig_ne_comma (h c hc)), if_neg (isDig_ne_dot (h c hc))]

theorem swap_removeAll_comm {X : List Char} (hX : ∀ c ∈ X, isDig c = true ∨ c = ',') :
    removeAll '.' (swapSep X) = swapSep (removeAll ',' X) := by
  induction X with
  | nil => rfl
  | cons c X ih =>
    have hc := hX c (by simp)
    have ihX := ih (fun x hx => hX x (by simp [hx]))
    rcases hc with hd | rfl
    · rw [swapSep, List.map_cons, if_neg (isDig_ne_comma hd), if_neg (isDig_ne_dot hd)]
      rw [removeAll_cons_of_ne _ (isDig_ne_dot hd), removeAll_cons_of_ne _ (isDig_ne_comma hd)]
      rw [swapSep, List.map_cons, if_neg (isDig_ne_comma hd), if_neg (isDig_ne_dot hd)]
      rw [← swapSep, ← swapSep, ihX]
    · rw [swapSep, List.map_cons, if_pos rfl, ← swapSep]
      rw [show removeAll '.' ('.' :: swapSep X) = removeAll '.' (swapSep X) by
        simp [removeAll, List.filter_cons]]
      rw [show removeAll ',' (',' :: X) = removeAll ',' X by
        simp [removeAll, List.filter_cons]]
      exact ihX

theorem removeAll_dot_swapSep_groupDigits {A : List Char} (hA : ∀ c ∈ A, isDig c = true) :
    removeAll '.' (swapSep (groupDigits A)) = A := by
  rw [swap_removeAll_comm (mem_groupDigits hA), removeAll_comma_groupDigits hA,
    swapSep_digits hA]

theorem mem_swapSep_groupDigits {A : List Char} (hA : ∀ c ∈ A, isDig c = true) :
    ∀ c ∈ swapSep (groupDigits A), isDig c = true ∨ c = '.' := by
  intro c hc
  rw [swapSep, List.mem_map] at hc
  obtain ⟨c0, hc0, rfl⟩ := hc
  rcases mem_groupDigits hA c0 hc0 with hd | rfl
  · rw [if_neg (isDig_ne_comma hd), if_neg (isDig_ne_dot hd)]
    exact Or.inl hd
  · rw [if_pos rfl]
    exact Or.inr rfl

/-! Behaviour of parse_amount on a formatted sign-group-comma string. -/

theorem mk_data (l : List Char) : (String.mk l).data = l := rfl

theorem sgp_mem {S A B : List Char} (hS : S = [] ∨ S = ['-'])
    (hA : ∀ c ∈ A, isDig c = true) (hB : ∀ c ∈ B, isDig c = true) :
    ∀ c ∈ (S ++ swapSep (groupDigits A)) ++ (',' :: B),
      c = '-' ∨ isDig c = true ∨ c = '.' ∨ c = ',' := by
  intro c hc
  simp only [List.mem_append, List.mem_cons] at hc
  rcases hc with (hcS | hcG) | (rfl | hcB)
  · left
    rcases hS with rfl | rfl
    · simp at hcS
    · simpa using hcS
  · rcases mem_swapSep_groupDigits hA c hcG with hd | rfl
    · exact Or.inr (Or.inl hd)
    · exact Or.inr (Or.inr (Or.inl rfl))
  · exact Or.inr (Or.inr (Or.inr rfl))
  · exact Or.inr (Or.inl (hB c hcB))

theorem transform_sgp {S A B : List Char} (hS : S = [] ∨ S = ['-'])
    (hA : ∀ c ∈ A, isDig c = true) (hB : ∀ c ∈ B, isDig c = true) :
    amountTransform ((S ++ swapSep (groupDigits A)) ++ (',' :: B)) = (S ++ A) ++ ('.' :: B) := by
  have hdotS : '.' ∉ S := by rcases hS with rfl | rfl <;> decide
  have hcommaS : ',' ∉ S := by rcases hS with rfl | rfl <;> decide
  have hdotB : '.' ∉ B := fun h => isDig_ne_dot (hB '.' h) rfl
  have hcommaB : ',' ∉ B := fun h => isDig_ne_comma (hB ',' h) rfl
  have hcommaA : ',' ∉ A := fun h => isDig_ne_comma (hA ',' h) rfl
  have hcomma : ',' ∈ (S ++ swapSep (groupDigits A)) ++ (',' :: B) := by simp
  by_cases hdot : '.' ∈ (S ++ swapSep (groupDigits A)) ++ (',' :: B)
  · rw [amountTransform, if_pos ⟨hdot, hcomma⟩]
    rw [removeAll_append, removeAll_append, removeAll_eq_self hdotS,
      removeAll_dot_swapSep_groupDigits hA,
      removeAll_cons_of_ne _ (by decide), removeAll_eq_self hdotB]
    rw [replaceAll_append, replaceAll_append, replaceAll_eq_self hcommaS,
      replaceAll_eq_self hcommaA]
    congr 1
    rw [replaceAll, List.map_cons, if_pos rfl, ← replaceAll, replaceAll_eq_self hcommaB]
  · rw [amountTransform, if_neg (fun hand => hdot hand.1), if_pos ⟨hcomma, hdot⟩]
    have hGnodot : '.' ∉ swapSep (groupDigits A) := fun hh => hdot (by simp [hh])
    have hGA : swapSep (groupDigits A) = A := by
      have h1 := removeAll_dot_swapSep_groupDigits hA
      rwa [removeAll_eq_self hGnodot] at h1
    rw [hGA, replaceAll_append, replaceAll_append, replaceAll_eq_self hcommaS,
      replaceAll_eq_self hcommaA]
    congr 1
    rw [replaceAll, List.map_cons, if_pos rfl, ← replaceAll, replaceAll_eq_self hcommaB]

theorem clean_sgp {S A B : List Char} (hS : S = [] ∨ S = ['-'])
    (hA : ∀ c ∈ A, isDig c = true) (hB : ∀ c ∈ B, isDig c = true) :
    cleanAmount (String.mk (((S ++ swapSep (groupDigits A)) ++ (',' :: B)) ++ ['€'])) =
      (S ++ swapSep (groupDigits A)) ++ (',' :: B) := by
  have hX := sgp_mem hS hA hB
  have hnospace : ∀ c ∈ ((S ++ swapSep (groupDigits A)) ++ (',' :: B)) ++ ['€'],
      isPySpace c = false := by
    intro c hc
    rcases List.mem_append.mp hc with h | h
    · rcases hX c h with rfl | hd | rfl | rfl
      · decide
      · exact isDig_not_space hd
      · decide
      · decide
    · simp only [List.mem_singleton] at h
      subst h
      decide
  have hnoeuro : '€' ∉ (S ++ swapSep (groupDigits A)) ++ (',' :: B) := by
    intro h
    rcases hX '€' h with h1 | h1 | h1 | h1 <;> exact absurd h1 (by decide)
  have hnosp : ' ' ∉ (S ++ swapSep (groupDigits A)) ++ (',' :: B) := by
    intro h
    rcases hX ' ' h with h1 | h1 | h1 | h1 <;> exact absurd h1 (by decide)
  have hnonb : '\xa0' ∉ (S ++ swapSep (groupDigits A)) ++ (',' :: B) := by
    intro h
    rcases hX '\xa0' h with h1 | h1 | h1 | h1 <;> exact absurd h1 (by decide)
  rw [cleanAmount, mk_data, pyStrip_eq_self hnospace]
  rw [removeAll_append '€' _ _, removeAll_eq_self hnoeuro]
  rw [show removeAll '€' ['€'] = [] from rfl, List.append_nil]
  rw [removeAll_eq_self hnosp, removeAll_eq_self hnonb]

theorem parse_amount_sgp {S A B : List Char} (hS : S = [] ∨ S = ['-'])
    (hA : ∀ c ∈ A, isDig c = true) (hB : ∀ c ∈ B, isDig c = true) :
    parse_amount (String.mk (((S ++ swapSep (groupDigits A)) ++ (',' :: B)) ++ ['€'])) =
      pyFloat ((S ++ A) ++ ('.' :: B)) := by
  have hclean := clean_sgp hS hA hB
  have hne : (S ++ swapSep (groupDigits A)) ++ (',' :: B) ≠ [] := by
    intro h
    have hm : ',' ∈ (S ++ swapSep (groupDigits A)) ++ (',' :: B) := by simp
    rw [h] at hm
    simp at hm
  rw [parse_amount, hclean, if_neg hne, transform_sgp hS hA hB]

theorem parse_format_hundredths (n : ℤ) :
    parse_amount (String.mk (swapSep (grouped2 n) ++ ['€'])) = some ((n : ℚ) / 100) := by
  have hA := natToChars_all_digits (n.natAbs / 100)
  have hAne := natToChars_ne_nil (n.natAbs / 100)
  have hB := twoDigitChars_all n.natAbs
  have hS : (if n < 0 then ['-'] else ([] : List Char)) = [] ∨
      (if n < 0 then ['-'] else ([] : List Char)) = ['-'] := by
    split
    · exact Or.inr rfl
    · exact Or.inl rfl
  have hgr : swapSep (grouped2 n) =
      ((if n < 0 then ['-'] else []) ++
        swapSep (groupDigits (natToChars (n.natAbs / 100)))) ++
        (',' :: twoDigitChars (n.natAbs % 100)) := by
    rw [grouped2, swapSep, List.map_append, List.map_append, List.map_cons]
    rw [← swapSep, ← swapSep, ← swapSep]
    congr 1
    · congr 1
      rcases hS with h | h <;> rw [h] <;> rfl
    · rw [swapSep_digits hB]
      congr 1
  rw [hgr, parse_amount_sgp hS hA hB]
  have hdec : ((if n < 0 then ['-'] else []) ++ natToChars (n.natAbs / 100)) ++
      ('.' :: twoDigitChars (n.natAbs % 100)) = decimal2 n := rfl
  rw [hdec, pyFloat_decimal2]

/-! Save and load round trip. -/

theorem parseRow_to_dict (e : Expense) : parseRow (to_dict_row e) = some (roundRecord e) := by
  have h1 : parseRow (to_dict_row e) =
      (pyFloat ((fmt2 e.amount).data)).map
        (fun q => ⟨e.date, e.category, e.description, q⟩) := rfl
  rw [h1, fmt2, mk_data, pyFloat_decimal2]
  rfl

theorem loadRowsAux_map (es : List Expense) :
    loadRowsAux (es.map to_dict_row) = some (es.map roundRecord) := by
  induction es with
  | nil => rfl
  | cons e es ih =>
    rw [List.map_cons]
    have h1 : loadRowsAux (to_dict_row e :: es.map to_dict_row) =
        match parseRow (to_dict_row e), loadRowsAux (es.map to_dict_row) with
        | some e, some es => some (e :: es)
        | _, _ => none := rfl
    rw [h1, parseRow_to_dict e, ih]
    rfl

theorem load_save (es : List Expense) :
    load_expenses (save_expenses es) = some (es.map roundRecord) := by
  have h1 : load_expenses (save_expenses es) = loadRowsAux (es.map to_dict_row) := rfl
  rw [h1, loadRowsAux_map]

theorem appendAll_eq (recs : List Expense) :
    appendAll recs = (recs, save_expenses recs) := by
  rw [appendAll]
  suffices h : ∀ init : List Expense,
      recs.foldl add_expense (init, save_expenses init) =
        (init ++ recs, save_expenses (init ++ recs)) by
    simpa using h []
  induction recs with
  | nil => intro init; simp
  | cons e es ih =>
    intro init
    rw [List.foldl_cons]
    have h1 : add_expense (init, save_expenses init) e =
        (init ++ [e], save_expenses (init ++ [e])) := rfl
    rw [h1, ih (init ++ [e])]
    simp

theorem roundRecord_of_hundredths (e : Expense) (m : ℤ) (hm : e.amount = (m : ℚ) / 100) :
    roundRecord e = e := by
  obtain ⟨d, c, de, a⟩ := e
  simp only [roundRecord]
  simp only at hm
  subst hm
  rw [div_mul_cancel₀ _ (by norm_num : (100 : ℚ) ≠ 0), rhe_intCast]

/-- C4: appending n records to a fresh ledger, persisting after each append,
and loading the persisted file yields the n records in order with the text
fields unchanged and each amount rounded to two decimal places by the .2f
column format; a record whose amount is a whole number of hundredths is
reproduced exactly. -/
theorem save_load_roundtrip (recs : List Expense) :
    load_expenses ((appendAll recs).2) = some (recs.map roundRecord) ∧
    (∀ e : Expense, (∃ m : ℤ, e.amount = (m : ℚ) / 100) → roundRecord e = e) := by
  constructor
  · rw [appendAll_eq, load_save]
  · rintro e ⟨m, hm⟩
    exact roundRecord_of_hundredths e m hm

/-- C4 witness: two records with two-decimal amounts survive the append and
load cycle unchanged. -/
theorem save_load_roundtrip_witness :
    load_expenses ((appendAll [(⟨"2024-01-01", "Essen", "Brot", (3 : ℚ) / 2⟩ : Expense),
        ⟨"2024-01-02", "Lohn", "Gehalt", (-7 : ℚ) / 100⟩]).2) =
      some [(⟨"2024-01-01", "Essen", "Brot", (3 : ℚ) / 2⟩ : Expense),
        ⟨"2024-01-02", "Lohn", "Gehalt", (-7 : ℚ) / 100⟩] := by
  have h := save_load_roundtrip [(⟨"2024-01-01", "Essen", "Brot", (3 : ℚ) / 2⟩ : Expense),
    ⟨"2024-01-02", "Lohn", "Gehalt", (-7 : ℚ) / 100⟩]
  rw [h.1, List.map_cons, List.map_cons, List.map_nil,
    h.2 _ ⟨150, by norm_num⟩, h.2 _ ⟨-7, by norm_num⟩]

/-- C4 counterexample: a record whose amount has more than two fractional
digits does not round trip field-wise equal; one thousandth is stored as
0.00 and loads back as zero. -/
theorem save_load_cex :
    load_expenses ((appendAll [(⟨"2024-01-01", "Essen", "Brot", 1 / 1000⟩ : Expense)]).2) ≠
      some [(⟨"2024-01-01", "Essen", "Brot", 1 / 1000⟩ : Expense)] := by
  have h0 : rhe ((1 / 1000 : ℚ) * 100) = 0 := by
    have h1 : ((1 : ℚ) / 1000) * 100 = 1 / 10 := by norm_num
    have hf : ⌊(1 : ℚ) / 10⌋ = 0 := by
      rw [Int.floor_eq_zero_iff, Set.mem_Ico]
      norm_num
    rw [h1, rhe, hf, if_pos (by norm_num)]
  rw [appendAll_eq, load_save]
  intro h
  simp only [List.map_cons, List.map_nil, Option.some.injEq, List.cons.injEq, and_true] at h
  have h2 := congrArg Expense.amount h
  simp only [roundRecord] at h2
  rw [h0] at h2
  norm_num at h2

/-- C3: parsing the formatted rendering of any amount yields exactly the
amount rounded half-to-even at two decimal places; an amount that is a
whole number of hundredths is reproduced exactly. -/
theorem parse_format_roundtrip (x : ℚ) :
    parse_amount (format_amount x) = some ((rhe (x * 100) : ℚ) / 100) ∧
    (∀ m : ℤ, x = (m : ℚ) / 100 → parse_amount (format_amount x) = some x) := by
  have hfmt : format_amount x = String.mk (swapSep (grouped2 (rhe (x * 100))) ++ ['€']) := rfl
  constructor
  · rw [hfmt, parse_format_hundredths]
  · intro m hm
    rw [hfmt, parse_format_hundredths]
    subst hm
    rw [div_mul_cancel₀ _ (by norm_num : (100 : ℚ) ≠ 0), rhe_intCast]

/-- C3 witness: formatting 1234.5 and parsing the result returns 1234.5. -/
theorem parse_format_roundtrip_witness :
    parse_amount (format_amount ((2469 : ℚ) / 2)) = some ((2469 : ℚ) / 2) :=
  (parse_format_roundtrip ((2469 : ℚ) / 2)).2 123450 (by norm_num)

/-! Positional deletion. -/

/-- C5: delete_entry with a 1-based position outside the range returns false
and leaves the ledger unchanged; with a position inside the range it returns
true, removes exactly the element at that position, shifting every later
record down by one, and the length drops by exactly one. -/
theorem delete_entry_correct (es : List Expense) (p : ℤ) :
    ((p < 1 ∨ (es.length : ℤ) < p) → delete_entry es p = (false, es)) ∧
    (1 ≤ p → p ≤ (es.length : ℤ) →
      delete_entry es p = (true, es.take (p.toNat - 1) ++ es.drop p.toNat) ∧
      (es.take (p.toNat - 1) ++ es.drop p.toNat).length = es.length - 1) := by
  constructor
  · intro h
    rw [delete_entry, if_pos h]
  · intro h1 h2
    have hcond : ¬(p < 1 ∨ (es.length : ℤ) < p) := by omega
    have hidx : (p - 1).toNat = p.toNat - 1 := by omega
    have hsucc : p.toNat - 1 + 1 = p.toNat := by omega
    constructor
    · rw [delete_entry, if_neg hcond, hidx, List.eraseIdx_eq_take_drop_succ, hsucc]
    · rw [List.length_append, List.length_take, List.length_drop]
      have hlen : p.toNat ≤ es.length := by omega
      omega

/-- C5 witness: position 0 fails without mutation on a three element ledger
and position 2 removes exactly the middle element. -/
theorem delete_entry_correct_witness :
    delete_entry [(⟨"2024-01-01", "Essen", "a", 1⟩ : Expense),
        ⟨"2024-01-02", "Essen", "b", 2⟩, ⟨"2024-01-03", "Essen", "c", 3⟩] 0 =
      (false, [(⟨"2024-01-01", "Essen", "a", 1⟩ : Expense),
        ⟨"2024-01-02", "Essen", "b", 2⟩, ⟨"2024-01-03", "Essen", "c", 3⟩]) ∧
    delete_entry [(⟨"2024-01-01", "Essen", "a", 1⟩ : Expense),
        ⟨"2024-01-02", "Essen", "b", 2⟩, ⟨"2024-01-03", "Essen", "c", 3⟩] 2 =
      (true, [(⟨"2024-01-01", "Essen", "a", 1⟩ : Expense),
        ⟨"2024-01-03", "Essen", "c", 3⟩]) := by
  constructor
  · exact (delete_entry_correct _ 0).1 (Or.inl (by norm_num))
  · have h := (delete_entry_correct [(⟨"2024-01-01", "Essen", "a", 1⟩ : Expense),
      ⟨"2024-01-02", "Essen", "b", 2⟩, ⟨"2024-01-03", "Essen", "c", 3⟩] 2).2
      (by norm_num) (by norm_num)
    rw [h.1]
    rfl

/-! Polarity selection. -/

/-- C8: with the income token the stored amount is the absolute value of the
parsed magnitude and with the expense token its negation; any other token
first looks up the TEXTS key sign_invalid, which is not defined anywhere in
the source, so the lookup raises an uncaught KeyError instead of defaulting
the entry to an expense. -/
theorem choose_sign_behavior (m : ℚ) :
    choose_sign "+" m = some |m| ∧
    choose_sign "-" m = some (-|m|) ∧
    choose_sign "x" m = none ∧
    TEXTS_keys.contains "sign_invalid" = false := by
  refine ⟨rfl, rfl, ?_, by decide⟩
  rw [choose_sign, if_pos (by decide), if_neg (by decide)]

/-! Counting separators through the rewriting steps. -/

theorem count_dot_replaceAll (t : List Char) :
    (replaceAll ',' '.' t).count '.' = t.count ',' + t.count '.' := by
  induction t with
  | nil => rfl
  | cons c t ih =>
    rw [replaceAll, List.map_cons, ← replaceAll]
    rw [List.count_cons, List.count_cons, List.count_cons, ih]
    by_cases h1 : c = ','
    · subst h1
      simp +decide
      omega
    · by_cases h2 : c = '.'
      · subst h2
        simp +decide
        omega
      · have e1 : (c == '.') = false := by simp [h2]
        have e2 : (c == ',') = false := by simp [h1]
        rw [if_neg h1, e1, e2]
        simp

theorem count_comma_removeAll_dot (t : List Char) :
    (removeAll '.' t).count ',' = t.count ',' :=
  List.count_filter (by decide)

theorem count_dot_removeAll_dot (t : List Char) :
    (removeAll '.' t).count '.' = 0 := by
  rw [List.count_eq_zero]
  intro h
  rw [removeAll, List.mem_filter] at h
  simp at h

/-! Claim theorems for the parser. -/

/-- C1: the four documented examples of parse_amount hold: a comma-decimal
input, a period-grouped comma-decimal input, a plain period-decimal input,
and a currency-prefixed input with spaces all parse to the intended value. -/
theorem parse_amount_examples :
    parse_amount "1,50" = some ((3 : ℚ) / 2) ∧
    parse_amount "1.234,50" = some ((2469 : ℚ) / 2) ∧
    parse_amount "1234.50" = some ((2469 : ℚ) / 2) ∧
    parse_amount "€ 1.234,50" = some ((2469 : ℚ) / 2) := by
  refine ⟨?_, ?_, ?_, ?_⟩
  · rw [parse_amount, if_neg (by decide),
      show amountTransform (cleanAmount "1,50") = ['1'] ++ '.' :: ['5', '0'] from by decide,
      pyFloat_dot_pos (by decide) (by decide) (by decide)]
    have e1 : charsVal ['1'] = 1 := rfl
    have e2 : charsVal ['5', '0'] = 50 := rfl
    rw [e1, e2]
    norm_num
  · rw [parse_amount, if_neg (by decide),
      show amountTransform (cleanAmount "1.234,50") =
        ['1', '2', '3', '4'] ++ '.' :: ['5', '0'] from by decide,
      pyFloat_dot_pos (by decide) (by decide) (by decide)]
    have e1 : charsVal ['1', '2', '3', '4'] = 1234 := rfl
    have e2 : charsVal ['5', '0'] = 50 := rfl
    rw [e1, e2]
    norm_num
  · rw [parse_amount, if_neg (by decide),
      show amountTransform (cleanAmount "1234.50") =
        ['1', '2', '3', '4'] ++ '.' :: ['5', '0'] from by decide,
      pyFloat_dot_pos (by decide) (by decide) (by decide)]
    have e1 : charsVal ['1', '2', '3', '4'] = 1234 := rfl
    have e2 : charsVal ['5', '0'] = 50 := rfl
    rw [e1, e2]
    norm_num
  · rw [parse_amount, if_neg (by decide),
      show amountTransform (cleanAmount "€ 1.234,50") =
        ['1', '2', '3', '4'] ++ '.' :: ['5', '0'] from by decide,
      pyFloat_dot_pos (by decide) (by decide) (by decide)]
    have e1 : charsVal ['1', '2', '3', '4'] = 1234 := rfl
    have e2 : charsVal ['5', '0'] = 50 := rfl
    rw [e1, e2]
    norm_num

/-- C2 counterexample: an input whose cleaned form contains a period and
more than one comma does not parse successfully; the code replaces every
comma with a period, not only the last one, and float then fails. -/
theorem parse_both_separators_cex :
    ('.' ∈ cleanAmount "1.2,3,4" ∧ ',' ∈ cleanAmount "1.2,3,4" ∧
      2 ≤ (cleanAmount "1.2,3,4").count ',') ∧
    parse_amount "1.2,3,4" = none := by
  refine ⟨⟨by decide, by decide, by decide⟩, ?_⟩
  rw [parse_amount, if_neg (by decide),
    show amountTransform (cleanAmount "1.2,3,4") = ['1', '2', '.', '3', '.', '4'] from by decide]
  exact pyFloat_two_dots (by decide)

/-- C2 amended: when the cleaned input contains both a period and a comma,
parse_amount removes all periods and replaces every remaining comma by a
period; with exactly one comma that comma acts as the decimal separator,
but with two or more commas the float conversion fails, so such inputs
raise InvalidAmount instead of parsing. -/
theorem parse_both_separators (s : String) (hdot : '.' ∈ cleanAmount s)
    (hcomma : ',' ∈ cleanAmount s) :
    parse_amount s = pyFloat (replaceAll ',' '.' (removeAll '.' (cleanAmount s))) ∧
    (2 ≤ (cleanAmount s).count ',' → parse_amount s = none) := by
  have hne : cleanAmount s ≠ [] := by
    intro h
    rw [h] at hdot
    simp at hdot
  have heq : parse_amount s = pyFloat (replaceAll ',' '.' (removeAll '.' (cleanAmount s))) := by
    rw [parse_amount, if_neg hne, amountTransform, if_pos ⟨hdot, hcomma⟩]
  refine ⟨heq, fun hc => ?_⟩
  rw [heq]
  apply pyFloat_two_dots
  rw [count_dot_replaceAll, count_comma_removeAll_dot, count_dot_removeAll_dot]
  omega

/-- C2 witness: a period-grouped input with two decimal-position commas
goes through the described rewriting and fails to parse. -/
theorem parse_both_separators_witness : parse_amount "12.345,67,89" = none :=
  (parse_both_separators "12.345,67,89" (by decide) (by decide)).2 (by decide)

/-- C9: an input whose cleaned form contains two or more commas and no
period fails to parse: every comma is replaced by a period, producing a
string with several periods that float rejects. -/
theorem parse_multicomma_noperiod (s : String)
    (hc : 2 ≤ (cleanAmount s).count ',') (hd : (cleanAmount s).count '.' = 0) :
    parse_amount s = none := by
  have hmem : ',' ∈ cleanAmount s := by
    have : 0 < (cleanAmount s).count ',' := by omega
    exact List.count_pos_iff.mp this
  have hnodot : '.' ∉ cleanAmount s := by
    intro h
    have : 0 < (cleanAmount s).count '.' := List.count_pos_iff.mpr h
    omega
  have hne : cleanAmount s ≠ [] := by
    intro h
    rw [h] at hc
    simp at hc
  rw [parse_amount, if_neg hne, amountTransform, if_neg (fun hand => hnodot hand.1),
    if_pos ⟨hmem, hnodot⟩]
  apply pyFloat_two_dots
  rw [count_dot_replaceAll]
  omega

/-- C9 witness: a comma-grouped comma-decimal input with no period fails. -/
theorem parse_multicomma_noperiod_witness : parse_amount "1,234,56" = none :=
  parse_multicomma_noperiod "1,234,56" (by decide) (by decide)

/-- C10: parse_amount preserves a leading minus sign: if an input cleans to
a digit-headed form that parses to q, then an input cleaning to the same
form with a minus sign prefixed parses to the negation of q, so the result
of parsing can be negative. -/
theorem parse_amount_minus (s t : String) (q : ℚ) (c : Char) (rest : List Char)
    (hhead : cleanAmount s = c :: rest) (hc : isDig c = true)
    (hq : parse_amount s = some q)
    (ht : cleanAmount t = '-' :: cleanAmount s) :
    parse_amount t = some (-q) := by
  have hne : cleanAmount s ≠ [] := by rw [hhead]; simp
  have hne' : cleanAmount t ≠ [] := by rw [ht]; simp
  have hdc : ('.' ∈ ('-' :: cleanAmount s) ∧ ',' ∈ ('-' :: cleanAmount s)) ↔
      ('.' ∈ cleanAmount s ∧ ',' ∈ cleanAmount s) := by
    rw [List.mem_cons, List.mem_cons, or_iff_right (by decide : ¬('.' : Char) = '-'),
      or_iff_right (by decide : ¬(',' : Char) = '-')]
  have hcc : (',' ∈ ('-' :: cleanAmount s) ∧ '.' ∉ ('-' :: cleanAmount s)) ↔
      (',' ∈ cleanAmount s ∧ '.' ∉ cleanAmount s) := by
    rw [List.mem_cons, List.mem_cons, or_iff_right (by decide : ¬(',' : Char) = '-'),
      not_or]
    constructor
    · rintro ⟨h1, _, h2⟩
      exact ⟨h1, h2⟩
    · rintro ⟨h1, h2⟩
      exact ⟨h1, by decide, h2⟩
  have htrans : amountTransform ('-' :: cleanAmount s) =
      '-' :: amountTransform (cleanAmount s) := by
    rw [amountTransform, amountTransform]
    by_cases h1 : '.' ∈ cleanAmount s ∧ ',' ∈ cleanAmount s
    · rw [if_pos (hdc.mpr h1), if_pos h1, removeAll_cons_of_ne _ (by decide),
        replaceAll_cons_of_ne _ _ (by decide)]
    · rw [if_neg (fun hh => h1 (hdc.mp hh)), if_neg h1]
      by_cases h2 : ',' ∈ cleanAmount s ∧ '.' ∉ cleanAmount s
      · rw [if_pos (hcc.mpr h2), if_pos h2, replaceAll_cons_of_ne _ _ (by decide)]
      · rw [if_neg (fun hh => h2 (hcc.mp hh)), if_neg h2]
  have hu : ∃ u, amountTransform (cleanAmount s) = c :: u := by
    rw [amountTransform]
    by_cases h1 : '.' ∈ cleanAmount s ∧ ',' ∈ cleanAmount s
    · rw [if_pos h1, hhead, removeAll_cons_of_ne _ (isDig_ne_dot hc),
        replaceAll_cons_of_ne _ _ (isDig_ne_comma hc)]
      exact ⟨_, rfl⟩
    · rw [if_neg h1]
      by_cases h2 : ',' ∈ cleanAmount s ∧ '.' ∉ cleanAmount s
      · rw [if_pos h2, hhead, replaceAll_cons_of_ne _ _ (isDig_ne_comma hc)]
        exact ⟨_, rfl⟩
      · rw [if_neg h2, hhead]
        exact ⟨_, rfl⟩
  obtain ⟨u, hu⟩ := hu
  rw [parse_amount, if_neg hne', ht, htrans, hu, pyFloat_neg]
  rw [parse_amount, if_neg hne, hu, pyFloat_pos_digits hc] at hq
  rw [hq]
  rfl

/-- C10 witness: the negative grouped input parses to the negation of what
the positive input parses to. -/
theorem parse_amount_minus_witness : parse_amount "-1.234,50" = some (-((2469 : ℚ) / 2)) := by
  have h : parse_amount "1.234,50" = some ((2469 : ℚ) / 2) := by
    rw [parse_amount, if_neg (by decide),
      show amountTransform (cleanAmount "1.234,50") =
        ['1', '2', '3', '4'] ++ '.' :: ['5', '0'] from by decide,
      pyFloat_dot_pos (by decide) (by decide) (by decide)]
    have e1 : charsVal ['1', '2', '3', '4'] = 1234 := rfl
    have e2 : charsVal ['5', '0'] = 50 := rfl
    rw [e1, e2]
    norm_num
  exact parse_amount_minus "1.234,50" "-1.234,50" ((2469 : ℚ) / 2) '1' (".234,50".data)
    (by decide) (by decide) h (by decide)

/-! Correctness of the summary aggregation. -/

theorem catSum_cons (e : Expense) (es : List Expense) (cat : String) :
    catSum (e :: es) cat = (if e.category = cat then e.amount else 0) + catSum es cat := by
  by_cases h : e.category = cat <;> simp [catSum, List.filter_cons, h]

theorem alGet_addToTotals (m : List (String × ℚ)) (c cat : String) (a : ℚ) :
    alGet (addToTotals m c a) cat =
      if c = cat then some ((alGet m cat).getD 0 + a) else alGet m cat := by
  induction m with
  | nil =>
    by_cases h : c = cat
    · subst h; simp [addToTotals, alGet]
    · simp [addToTotals, alGet, h]
  | cons kv rest ih =>
    obtain ⟨k, v⟩ := kv
    by_cases hkc : k = c
    · subst hkc
      rw [addToTotals, if_pos rfl]
      by_cases hkcat : k = cat
      · subst hkcat
        simp [alGet]
      · simp [alGet, hkcat]
    · rw [addToTotals, if_neg hkc]
      by_cases hkcat : k = cat
      · subst hkcat
        have hccat : ¬(c = k) := fun hh => hkc hh.symm
        simp [alGet, hccat]
      · simp [alGet, hkcat, ih]

theorem alGet_category_foldl (es : List Expense) :
    ∀ (m : List (String × ℚ)) (cat : String),
      alGet (es.foldl (fun m e => addToTotals m e.category e.amount) m) cat =
        if (alGet m cat).isSome = true ∨ ∃ e ∈ es, e.category = cat then
          some ((alGet m cat).getD 0 + catSum es cat)
        else alGet m cat := by
  induction es with
  | nil =>
    intro m cat
    rw [List.foldl_nil]
    rcases h : alGet m cat with _ | w
    · simp [h, catSum]
    · simp [h, catSum]
  | cons e es ih =>
    intro m cat
    rw [List.foldl_cons, ih (addToTotals m e.category e.amount) cat, alGet_addToTotals,
      catSum_cons]
    by_cases hec : e.category = cat
    · rw [if_pos hec, if_pos hec]
      simp only [Option.isSome_some, true_or, if_true, Option.getD_some]
      rw [if_pos (Or.inr ⟨e, by simp, hec⟩)]
      rw [add_assoc]
    · rw [if_neg hec, if_neg hec, zero_add]
      have hiff : (∃ x ∈ e :: es, x.category = cat) ↔ (∃ x ∈ es, x.category = cat) := by
        constructor
        · rintro ⟨x, hx, hcat⟩
          rcases List.mem_cons.mp hx with rfl | hx'
          · exact absurd hcat hec
          · exact ⟨x, hx', hcat⟩
        · rintro ⟨x, hx, hcat⟩
          exact ⟨x, List.mem_cons_of_mem _ hx, hcat⟩
      simp only [hiff]

theorem mem_keys_addToTotals (m : List (String × ℚ)) (c : String) (a : ℚ) (k : String) :
    k ∈ (addToTotals m c a).map Prod.fst ↔ k ∈ m.map Prod.fst ∨ k = c := by
  induction m with
  | nil => simp [addToTotals]
  | cons kv rest ih =>
    obtain ⟨k0, v0⟩ := kv
    by_cases hk0 : k0 = c
    · subst hk0
      rw [addToTotals, if_pos rfl]
      simp only [List.map_cons, List.mem_cons]
      constructor
      · rintro (rfl | h)
        · exact Or.inr rfl
        · exact Or.inl (Or.inr h)
      · rintro ((rfl | h) | rfl)
        · exact Or.inl rfl
        · exact Or.inr h
        · exact Or.inl rfl
    · rw [addToTotals, if_neg hk0]
      simp only [List.map_cons, List.mem_cons, ih]
      tauto

theorem keys_nodup_addToTotals (m : List (String × ℚ)) (c : String) (a : ℚ)
    (h : (m.map Prod.fst).Nodup) : ((addToTotals m c a).map Prod.fst).Nodup := by
  induction m with
  | nil => simp [addToTotals]
  | cons kv rest ih =>
    obtain ⟨k0, v0⟩ := kv
    simp only [List.map_cons, List.nodup_cons] at h
    by_cases hk0 : k0 = c
    · subst hk0
      rw [addToTotals, if_pos rfl]
      simp only [List.map_cons, List.nodup_cons]
      exact h
    · rw [addToTotals, if_neg hk0]
      simp only [List.map_cons, List.nodup_cons, mem_keys_addToTotals]
      exact ⟨fun hh => hh.elim h.1 hk0, ih h.2⟩

theorem mem_iff_alGet (m : List (String × ℚ)) (h : (m.map Prod.fst).Nodup)
    (k : String) (v : ℚ) : (k, v) ∈ m ↔ alGet m k = some v := by
  induction m with
  | nil => simp [alGet]
  | cons kv rest ih =>
    obtain ⟨k0, v0⟩ := kv
    simp only [List.map_cons, List.nodup_cons] at h
    constructor
    · intro hm
      rcases List.mem_cons.mp hm with heq | hm'
      · rw [Prod.mk.injEq] at heq
        obtain ⟨rfl, rfl⟩ := heq
        simp [alGet]
      · have hk : k ≠ k0 := by
          rintro rfl
          exact h.1 (by simpa using List.mem_map_of_mem Prod.fst hm')
        rw [alGet, if_neg (fun hh => hk hh.symm)]
        exact (ih h.2).mp hm'
    · intro hg
      rw [alGet] at hg
      by_cases hk : k0 = k
      · subst hk
        rw [if_pos rfl] at hg
        obtain rfl : v0 = v := by simpa using hg
        simp
      · rw [if_neg hk] at hg
        exact List.mem_cons_of_mem _ ((ih h.2).mpr hg)

theorem category_totals_nodup (es : List Expense) :
    ((category_totals es).map Prod.fst).Nodup := by
  rw [category_totals]
  suffices h : ∀ m : List (String × ℚ), (m.map Prod.fst).Nodup →
      ((es.foldl (fun m e => addToTotals m e.category e.amount) m).map Prod.fst).Nodup by
    exact h [] (by simp)
  induction es with
  | nil => intro m hm; simpa using hm
  | cons e es ih =>
    intro m hm
    rw [List.foldl_cons]
    exact ih _ (keys_nodup_addToTotals m e.category e.amount hm)

theorem mem_category_totals (es : List Expense) (cat : String) (v : ℚ) :
    (cat, v) ∈ category_totals es ↔
      (∃ e ∈ es, e.category = cat) ∧ v = catSum es cat := by
  rw [mem_iff_alGet _ (category_totals_nodup es), category_totals,
    alGet_category_foldl es [] cat]
  have halnil : alGet [] cat = none := rfl
  rw [halnil]
  by_cases hex : ∃ e ∈ es, e.category = cat
  · rw [if_pos (Or.inr hex)]
    simp only [Option.getD_none, zero_add, Option.some.injEq]
    constructor
    · intro h
      exact ⟨hex, h.symm⟩
    · intro h
      exact h.2.symm
  · rw [if_neg ?hcond]
    · simp [hex]
    case hcond =>
      rintro (h | h)
      · simp at h
      · exact hex h

/-- C6: the summary keeps exactly the categories whose summed amount over
the ledger is strictly positive, each with that sum as its value; with a
non-empty ledger in which no category has a positive net sum the summary
reports the no-positive-amounts outcome instead of invoking the chart
sink, and otherwise the chart sink receives exactly the filtered totals. -/
theorem plot_summary_correct (es : List Expense) :
    (∀ cat v, (cat, v) ∈ plotFiltered es ↔
      ((∃ e ∈ es, e.category = cat) ∧ v = catSum es cat ∧ 0 < v)) ∧
    (es ≠ [] → plotFiltered es = [] → plot_summary es = PlotResult.noPositive) ∧
    (es ≠ [] → plotFiltered es ≠ [] → plot_summary es = PlotResult.chart (plotFiltered es)) := by
  refine ⟨?_, ?_, ?_⟩
  · intro cat v
    rw [plotFiltered, List.mem_filter, mem_category_totals]
    simp only [decide_eq_true_eq]
    tauto
  · intro h1 h2
    rw [plot_summary, if_neg h1, if_pos h2]
  · intro h1 h2
    rw [plot_summary, if_neg h1, if_neg h2]

/-- C6 witness: two expense entries of the Food category with amounts -20
and -5 leave no plottable category, and the aggregator reports the
no-positive-amounts outcome. -/
theorem plot_summary_correct_witness :
    plot_summary [(⟨"2024-01-01", "Food", "a", -20⟩ : Expense),
      ⟨"2024-01-02", "Food", "b", -5⟩] = PlotResult.noPositive := by
  have hf : plotFiltered [(⟨"2024-01-01", "Food", "a", -20⟩ : Expense),
      ⟨"2024-01-02", "Food", "b", -5⟩] = [] := by
    rw [plotFiltered,
      show category_totals [(⟨"2024-01-01", "Food", "a", -20⟩ : Expense),
        ⟨"2024-01-02", "Food", "b", -5⟩] = [("Food", (-20 : ℚ) + -5)] from rfl,
      show ((-20 : ℚ) + -5) = -25 from by norm_num]
    decide
  exact (plot_summary_correct _).2.1 (by simp) hf

/-! Column widths of the table renderer. -/

theorem numLen_zero : numLen 0 = 1 := rfl

theorem numLen_eq {n : ℕ} (hn : n ≠ 0) : numLen n = (Nat.digits 10 n).length := by
  rw [numLen, natToChars_eq hn]
  simp

theorem numLen_pos (n : ℕ) : 1 ≤ numLen n := by
  rcases eq_or_ne n 0 with rfl | h
  · rw [numLen_zero]
  · rw [numLen_eq h]
    exact List.length_pos.mpr (Nat.digits_ne_nil_iff_ne_zero.mpr h)

theorem numLen_mono {m n : ℕ} (h : m ≤ n) : numLen m ≤ numLen n := by
  rcases eq_or_ne m 0 with rfl | hm
  · rw [numLen_zero]
    exact numLen_pos n
  · have hn : n ≠ 0 := by omega
    rw [numLen_eq hm, numLen_eq hn, Nat.digits_len 10 m (by norm_num) hm,
      Nat.digits_len 10 n (by norm_num) hn]
    have := Nat.log_mono_right (b := 10) h
    omega

theorem pymax_append_singleton (A : List ℕ) (x : ℕ) (h : A ≠ []) :
    pymax 0 (A ++ [x]) = max (pymax 0 A) x := by
  obtain ⟨a, A', rfl⟩ := List.exists_cons_of_ne_nil h
  rw [List.cons_append]
  show (A' ++ [x]).foldl max a = max (A'.foldl max a) x
  rw [List.foldl_append]
  rfl

theorem pymax_range_numLen (L : ℕ) (hL : 1 ≤ L) :
    pymax 0 ((List.range' 1 L).map numLen) = numLen L := by
  induction L with
  | zero => omega
  | succ L ih =>
    rcases Nat.eq_zero_or_pos L with rfl | hL'
    · rfl
    · rw [List.range'_concat, List.map_append]
      have hone : 1 + 1 * L = L + 1 := by omega
      rw [hone]
      have hne : (List.range' 1 L).map numLen ≠ [] := by
        intro hh
        have := congrArg List.length hh
        simp [List.length_range'] at this
        omega
      rw [List.map_singleton, pymax_append_singleton _ _ hne, ih hL']
      exact max_eq_right (numLen_mono (by omega))

/-- C7 counterexample: for a ledger with one record whose date string has
eight characters, the date column is rendered 10 wide, while the maximum of
the header label Datum and the longest date cell is 8, so the computed
width differs from, and exceeds, the claimed maximum. -/
theorem view_widths_date_cex :
    date_w [(⟨"2024-1-1", "Food", "Lunch", 1⟩ : Expense)] = 10 ∧
    claimColWidth ("Datum".length)
      ([(⟨"2024-1-1", "Food", "Lunch", 1⟩ : Expense)].map (fun e => e.date.length)) = 8 ∧
    date_w [(⟨"2024-1-1", "Food", "Lunch", 1⟩ : Expense)] ≠
      claimColWidth ("Datum".length)
        ([(⟨"2024-1-1", "Food", "Lunch", 1⟩ : Expense)].map (fun e => e.date.length)) := by
  refine ⟨by decide, by decide, by decide⟩

/-- C7 (amended): for a non-empty ledger the number, category, description
and amount columns are exactly as wide as the maximum of the header label
length and the longest formatted cell of the column, the amount column
including the formatted total; the date column instead uses the fixed
minimum 10 in place of its header label, so it equals the maximum of 10
and the longest date and is never narrower than the claimed maximum. -/
theorem view_widths_correct (es : List Expense) (h : es ≠ []) :
    nr_w es = claimColWidth ("Nr.".length) ((List.range' 1 es.length).map numLen) ∧
    cat_w es = claimColWidth ("Kategorie".length) (es.map (fun e => e.category.length)) ∧
    desc_w es = claimColWidth ("Beschreibung".length)
      (es.map (fun e => e.description.length)) ∧
    amt_w es = claimColWidth ("Betrag".length)
      (es.map (fun e => (format_amount e.amount).length) ++
        [(format_amount (get_total es)).length]) ∧
    date_w es = max 10 (pymax 0 (es.map (fun e => e.date.length))) ∧
    claimColWidth ("Datum".length) (es.map (fun e => e.date.length)) ≤ date_w es := by
  obtain ⟨e, es', rfl⟩ := List.exists_cons_of_ne_nil h
  refine ⟨?_, rfl, rfl, rfl, rfl, ?_⟩
  · rw [nr_w, claimColWidth, pymax_range_numLen _ (by rw [List.length_cons]; omega)]
  · rw [date_w, claimColWidth]
    simp only [List.map_cons]
    have h5 : ("Datum".length) = 5 := rfl
    rw [h5]
    exact max_le_max (by norm_num) le_rfl

/-- C7 witness: on a one record ledger the number column width matches the
claimed header and cell maximum and the date column width is the maximum of
10 and the date length. -/
theorem view_widths_correct_witness :
    nr_w [(⟨"2024-11-05", "Food", "Lunch", 1⟩ : Expense)] =
      claimColWidth ("Nr.".length)
        ((List.range' 1 [(⟨"2024-11-05", "Food", "Lunch", 1⟩ : Expense)].length).map numLen) ∧
    date_w [(⟨"2024-11-05", "Food", "Lunch", 1⟩ : Expense)] =
      max 10 (pymax 0 ([(⟨"2024-11-05", "Food", "Lunch", 1⟩ : Expense)].map
        (fun e => e.date.length))) := by
  have h := view_widths_correct [(⟨"2024-11-05", "Food", "Lunch", 1⟩ : Expense)] (by simp)
  exact ⟨h.1, h.2.2.2.2.1⟩
